import Mathlib

/-!
Shallow embedding of the hybrid-search and indexing core of
`mcp-apple-notes` (`src/index.ts`), together with theorems settling the
specification claims about it.

Conventions of the embedding:
* The index-store channels (LanceDB vector / full-text queries), the note
  store (JXA calls) and the HTML normalizer are external collaborators;
  their outcomes enter the model as explicit parameters (`Except` for
  fallible calls), exactly at the points where the source awaits them.
* JavaScript numbers used by the fusion scoring are modelled as exact
  rationals (`ℚ`); string keys and template literals are modelled with
  Lean strings; `Map` (insertion-ordered, keyed by string equality) is
  modelled as an insertion-ordered association list.
* `Array.prototype.sort` with comparator `(a, b) => b.score - a.score` is
  (per ES2019) the stable descending sort by score; it is modelled by
  `List.insertionSort` with the relation `scoreOrder x y := y.2 ≤ x.2`,
  which is sorted for that relation and stable — the unique output a
  stable descending sort can produce.
-/

namespace McpAppleNotes

/-- A row delivered by one of the two search channels.  The LanceDB rows
carry further fields (`id`, dates, `vector`, engine score columns), but
`searchAndCombineResults` reads only `title` and `content`, so only those
are modelled. -/
structure Row where
  title : String
  content : String
deriving DecidableEq, Repr

/-- The `{title, content}` pair returned by `searchAndCombineResults`
(`.map(([key]) => { const [title, content] = key.split("::"); ... })`). -/
structure SearchResult where
  title : String
  content : String
deriving DecidableEq, Repr

/-- The fusion key: the template literal `` `${result.title}::${result.content}` ``. -/
def mkKey (result : Row) : String :=
  result.title ++ "::" ++ result.content

/-- JavaScript `key.split("::")` on the character level: splits at each
leftmost, non-overlapping occurrence of the two-character separator `::`. -/
def splitSep : List Char → List (List Char)
  | [] => [[]]
  | [c] => [[c]]
  | c₁ :: c₂ :: cs =>
    if c₁ = ':' ∧ c₂ = ':' then
      [] :: splitSep cs
    else
      match splitSep (c₂ :: cs) with
      | [] => [[c₁]]
      | g :: gs => (c₁ :: g) :: gs

/-- Decoding a fusion key: `const [title, content] = key.split("::")`,
keeping only the first two segments.  (A key produced by `mkKey` always
contains `::`, so the one-segment branch — where JavaScript would yield
`content = undefined` — is unreachable for such keys.) -/
def decodeKey (key : String) : SearchResult :=
  match splitSep key.data with
  | title :: content :: _ => ⟨String.mk title, String.mk content⟩
  | [title] => ⟨String.mk title, ""⟩
  | [] => ⟨"", ""⟩

/-- The RRF constant: `const k = 60`. -/
def k : ℚ := 60

/-- The insertion-ordered score map `new Map<string, number>()`. -/
abbrev ScoreMap := List (String × ℚ)

/-- JavaScript `scores.get(key)`. -/
def scoresGet : ScoreMap → String → Option ℚ
  | [], _ => none
  | (k₀, v₀) :: rest, key => if k₀ = key then some v₀ else scoresGet rest key

/-- JavaScript `scores.set(key, v)`: overwrites in place when the key is
present (keeping its insertion position), otherwise appends at the end. -/
def scoresSet : ScoreMap → String → ℚ → ScoreMap
  | [], key, v => [(key, v)]
  | (k₀, v₀) :: rest, key, v =>
    if k₀ = key then (k₀, v) :: rest else (k₀, v₀) :: scoresSet rest key v

/-- The score an item holds in the map, with 0 for an absent key
(JavaScript `scores.get(key) || 0`). -/
def getScoreD (scores : ScoreMap) (key : String) : ℚ :=
  (scoresGet scores key).getD 0

/-- The body of `processResults(results, startRank)`: a `forEach` with
index `idx`, adding `1 / (k + startRank + idx)` to the entry keyed by
`` `${result.title}::${result.content}` ``. -/
def processResultsAux (startRank : Nat) : List Row → Nat → ScoreMap → ScoreMap
  | [], _, scores => scores
  | result :: rest, idx, scores =>
    let key := mkKey result
    let score : ℚ := 1 / (k + (startRank : ℚ) + (idx : ℚ))
    processResultsAux startRank rest (idx + 1)
      (scoresSet scores key (getScoreD scores key + score))

/-- `processResults(results, startRank)` from the source, acting on an
explicit score map instead of the closed-over mutable `scores`. -/
def processResults (results : List Row) (startRank : Nat) (scores : ScoreMap) : ScoreMap :=
  processResultsAux startRank results 0 scores

/-- The accumulated score map after `processResults(vectorResults, 0);
processResults(ftsSearchResults, 0);` starting from the empty map: the
vector channel is processed first, then the full-text channel. -/
def fuseScores (vectorResults ftsSearchResults : List Row) : ScoreMap :=
  processResults ftsSearchResults 0 (processResults vectorResults 0 [])

/-- The comparator `([, a], [, b]) => b - a`: `x` sorts no later than `y`
iff `y`'s score is at most `x`'s. -/
def scoreOrder (x y : String × ℚ) : Prop := y.2 ≤ x.2

instance : DecidableRel scoreOrder := fun x y =>
  inferInstanceAs (Decidable (y.2 ≤ x.2))

/-- JavaScript stable `.sort(([, a], [, b]) => b - a)` on the entry list:
the stable descending sort by score. -/
def sortByScore (scores : ScoreMap) : ScoreMap :=
  scores.insertionSort scoreOrder

/-- The pure fusion core of `searchAndCombineResults`, taking the two
channel result lists as delivered (after each channel's own error
recovery).  `limit` defaults to 20 at the call boundary in the source. -/
def searchAndCombineResults (vectorResults ftsSearchResults : List Row)
    (limit : Nat) : List SearchResult :=
  ((sortByScore (fuseScores vectorResults ftsSearchResults)).take limit).map
    (fun e => decodeKey e.1)

/-- The per-channel `try/catch` wrapping each of the two queries: a
throwing channel is recovered to the empty result list. -/
def recoverChannel : Except String (List Row) → List Row
  | .ok results => results
  | .error _ => []

/-- The full `searchAndCombineResults`, taking each channel's raw outcome
(a result list, or a thrown error).  The outer `try/catch` of the source
guards only the channel calls and the pure fusion body, which cannot
throw, so it adds no further case here. -/
def searchAndCombineResultsE (vectorOutcome ftsOutcome : Except String (List Row))
    (limit : Nat) : List SearchResult :=
  searchAndCombineResults (recoverChannel vectorOutcome) (recoverChannel ftsOutcome) limit

/-- Sample rows used by the concrete fusion claims. -/
def rowA : Row := ⟨"A", "a"⟩

/-- Sample row B. -/
def rowB : Row := ⟨"B", "b"⟩

/-- Sample row C. -/
def rowC : Row := ⟨"C", "c"⟩

/-! ### Key analysis helpers

Character-level predicates describing when `decodeKey` inverts `mkKey`.
They are used to settle the implicit round-trip claim about the fusion
key encoding. -/

/-- Whether a character list contains the two-character separator `::`. -/
def hasSep : List Char → Bool
  | [] => false
  | [_] => false
  | c₁ :: c₂ :: cs => if c₁ = ':' ∧ c₂ = ':' then true else hasSep (c₂ :: cs)

/-- Whether a character list ends with a colon. -/
def endsColon (l : List Char) : Bool := l.getLast? == some ':'

/-- The first segment produced by `splitSep`: the characters before the
first occurrence of `::` (the whole list when `::` is absent). -/
def takeUntilSep : List Char → List Char
  | [] => []
  | [c] => [c]
  | c₁ :: c₂ :: cs => if c₁ = ':' ∧ c₂ = ':' then [] else c₁ :: takeUntilSep (c₂ :: cs)

/-- The characters after the first occurrence of `::` (junk value `[]`
when `::` is absent; only used under `hasSep`). -/
def dropSep : List Char → List Char
  | [] => []
  | [_] => []
  | c₁ :: c₂ :: cs => if c₁ = ':' ∧ c₂ = ':' then cs else dropSep (c₂ :: cs)

/-! ### Indexing pipeline (`indexNotes`, `src/index.ts` lines 196-273)

External effects are passed in as parameters, in the order the source
awaits them: the table clear (`notesTable.delete("true")`), the title
enumeration (`getNotes()`, which can throw, or resolve to a missing
value handled by `|| []`), the per-title detail fetch
(`getNoteDetailsByTitle`, whose JXA script resolves to `{}` — all fields
absent — when the note is missing), the HTML-to-markdown normalizer
(`nhm.translate`), and the bulk insert (`notesTable.add`).

The wall-clock `time` field of the source's result object (computed from
`performance.now()`) is non-deterministic and is not modelled; no claim
mentions it. `report` accumulation from the concurrent per-note fetches
is modelled in list order. -/

/-- The parsed JSON returned by `getNoteDetailsByTitle`: the fields of
the note, each possibly absent (the script returns `"{}"` for a missing
or inaccessible note). -/
structure NoteDetail where
  title : Option String
  content : Option String
  creation_date : Option String
  modification_date : Option String
deriving DecidableEq, Repr

/-- The `{}` record produced for a missing note or a failed fetch. -/
def emptyDetail : NoteDetail := ⟨none, none, none, none⟩

/-- JavaScript truthiness of a possibly-absent string (`n.title` in the
filter): `undefined` and the empty string are falsy. -/
def truthyStr : Option String → Bool
  | none => false
  | some s => !(s == "")

/-- JavaScript `x || ""` on a possibly-absent string (`node.content || ""`). -/
def orEmpty : Option String → String
  | none => ""
  | some s => s

/-- JavaScript template interpolation of a possibly-absent string
(`` `${node.title}` `` prints `undefined` for an absent field). -/
def optStr : Option String → String
  | none => "undefined"
  | some s => s

/-- The `notesDetails` array: one record per title, a failed fetch
recovered to `{}`. -/
def notesDetails (fetch : String → Except String NoteDetail)
    (allNotes : List String) : List NoteDetail :=
  allNotes.map (fun note =>
    match fetch note with
    | .ok d => d
    | .error _ => emptyDetail)

/-- The report text contributed by failed detail fetches. -/
def fetchReport (fetch : String → Except String NoteDetail)
    (allNotes : List String) : String :=
  String.join (allNotes.map (fun note =>
    match fetch note with
    | .ok _ => ""
    | .error msg => s!"Error getting note details for {note}: {msg}\n"))

/-- The records surviving `.filter((n) => n.title)`. -/
def survivors (fetch : String → Except String NoteDetail)
    (allNotes : List String) : List NoteDetail :=
  (notesDetails fetch allNotes).filter (fun n => truthyStr n.title)

/-- One step of the normalization `.map`: translate the content, falling
back to the untouched record when the normalizer throws. -/
def translateNote (translate : String → Except String String)
    (node : NoteDetail) : NoteDetail :=
  match translate (orEmpty node.content) with
  | .ok c => { node with content := some c }
  | .error _ => node

/-- The report text contributed by failed normalizations. -/
def translateReport (translate : String → Except String String)
    (nodes : List NoteDetail) : String :=
  String.join (nodes.map (fun node =>
    match translate (orEmpty node.content) with
    | .ok _ => ""
    | .error msg => s!"Error converting content for {optStr node.title}: {msg}\n"))

/-- A row handed to `notesTable.add`. -/
structure Chunk where
  id : String
  title : Option String
  content : Option String
  creation_date : Option String
  modification_date : Option String
deriving DecidableEq, Repr

/-- The positional-id `.map((note, index) => ({ id: index.toString(), ... }))`. -/
def mkChunks (notes : List NoteDetail) : List Chunk :=
  notes.enum.map (fun p =>
    { id := toString p.1
      title := p.2.title
      content := p.2.content
      creation_date := p.2.creation_date
      modification_date := p.2.modification_date })

/-- The `chunks` array of a pass: fetch, filter, normalize, then assign
sequential ids. -/
def chunksOf (fetch : String → Except String NoteDetail)
    (translate : String → Except String String)
    (allNotes : List String) : List Chunk :=
  mkChunks ((survivors fetch allNotes).map (translateNote translate))

/-- The object `indexNotes` resolves to (without the unmodelled `time`
field); `error` is present exactly on the outer-catch path. -/
structure IndexResult where
  chunks : Nat
  report : String
  allNotes : Nat
  error : Option String
deriving DecidableEq, Repr

/-- The report prefix produced by the clear step: empty on success, the
caught warning on failure. -/
def clearReport : Except String Unit → String
  | .ok _ => ""
  | .error msg => s!"Warning: Failed to clear existing records: {msg}. Will proceed with indexing.\n"

/-- The body of `indexNotes` after the clear step.  The second component
records the bulk insert: `none` when `notesTable.add` was never called,
`some chunks` when it was called with `chunks` (whether or not it then
threw — a throwing `add` is the outer-catch path). -/
def indexNotesBody (getNotesResult : Except String (Option (List String)))
    (fetch : String → Except String NoteDetail)
    (translate : String → Except String String)
    (addResult : List Chunk → Except String Unit) :
    IndexResult × Option (List Chunk) :=
  match getNotesResult with
  | .error msg =>
      ({ chunks := 0, report := s!"Error during indexing: {msg}\n",
         allNotes := 0, error := some msg }, none)
  | .ok allNotesOpt =>
    let allNotes := allNotesOpt.getD []
    let report₁ := fetchReport fetch allNotes
    let surviving := survivors fetch allNotes
    let report₂ := report₁ ++ translateReport translate surviving
    let chunks := chunksOf fetch translate allNotes
    if chunks.length = 0 then
      ({ chunks := 0, report := report₂ ++ "No valid notes found to index.",
         allNotes := allNotes.length, error := none }, none)
    else
      match addResult chunks with
      | .ok _ =>
          ({ chunks := chunks.length, report := report₂,
             allNotes := allNotes.length, error := none }, some chunks)
      | .error msg =>
          ({ chunks := 0, report := report₂ ++ s!"Error during indexing: {msg}\n",
             allNotes := 0, error := some msg }, some chunks)

/-- The full `indexNotes` pass: every return path reports the
accumulated string, whose first contribution is the clear warning. -/
def indexNotes (clearResult : Except String Unit)
    (getNotesResult : Except String (Option (List String)))
    (fetch : String → Except String NoteDetail)
    (translate : String → Except String String)
    (addResult : List Chunk → Except String Unit) :
    IndexResult × Option (List Chunk) :=
  let body := indexNotesBody getNotesResult fetch translate addResult
  ({ body.1 with report := clearReport clearResult ++ body.1.report }, body.2)

/-! ### Table creation (`createNotesTable`, `src/index.ts` lines 275-294) -/

/-- An entry of `notesTable.listIndices()`. -/
structure IndexInfo where
  name : String
deriving DecidableEq, Repr

/-- Modelled from the spec: the index storage engine's `createIndex` on
the `content` field is not part of this repository; per the spec's index
store contract ("creates a full-text index over the text field if none
exists; must be idempotent (checking existing index names before
creating)") and the guard the source pairs with it, the created
full-text index is registered under the name `content_idx`. -/
def createContentIdx (indices : List IndexInfo) : List IndexInfo :=
  indices ++ [⟨"content_idx"⟩]

/-- The index-management part of `createNotesTable`: list the table's
indices and create the full-text index exactly when none of them is
named `content_idx`.  Returns the resulting index list and whether
`createIndex` was invoked. -/
def createNotesTable (indices : List IndexInfo) : List IndexInfo × Bool :=
  if (indices.find? (fun index => index.name == "content_idx")).isSome then
    (indices, false)
  else
    (createContentIdx indices, true)

/-! ### Helper lemmas about the score map -/

/-- The total contribution a key receives from one channel's ranked list,
scanning from `forEach` index `idx` with the given `startRank`. -/
def channelContribAux (key : String) (startRank : Nat) : List Row → Nat → ℚ
  | [], _ => 0
  | r :: rs, idx =>
    (if mkKey r = key then 1 / (k + (startRank : ℚ) + (idx : ℚ)) else 0) +
      channelContribAux key startRank rs (idx + 1)

/-- The total contribution a key receives from one channel's ranked list
(as both call sites pass it: `startRank = 0`, ranks from 0). -/
def channelContrib (key : String) (results : List Row) : ℚ :=
  channelContribAux key 0 results 0

theorem scoresGet_scoresSet (m : ScoreMap) (key target : String) (v : ℚ) :
    scoresGet (scoresSet m key v) target
      = if key = target then some v else scoresGet m target := by
  induction m with
  | nil => simp [scoresSet, scoresGet]
  | cons e rest ih =>
    obtain ⟨k₀, v₀⟩ := e
    by_cases h : k₀ = key
    · subst h
      by_cases h₂ : k₀ = target <;> simp [scoresSet, scoresGet, h₂]
    · by_cases h₂ : k₀ = target
      · subst h₂
        have : ¬ key = k₀ := fun hk => h hk.symm
        simp [scoresSet, scoresGet, h, this]
      · simp [scoresSet, scoresGet, h, h₂, ih]

theorem getScoreD_processResultsAux (startRank : Nat) (rs : List Row) (idx : Nat)
    (m : ScoreMap) (key : String) :
    getScoreD (processResultsAux startRank rs idx m) key
      = getScoreD m key + channelContribAux key startRank rs idx := by
  induction rs generalizing idx m with
  | nil => simp [processResultsAux, channelContribAux]
  | cons r rest ih =>
    simp only [processResultsAux, channelContribAux]
    rw [ih, getScoreD, scoresGet_scoresSet]
    by_cases h : mkKey r = key
    · simp [h, getScoreD]
      ring
    · simp [h, getScoreD]

theorem mem_keys_scoresSet (m : ScoreMap) (key target : String) (v : ℚ) :
    target ∈ (scoresSet m key v).map Prod.fst
      ↔ target ∈ m.map Prod.fst ∨ target = key := by
  induction m with
  | nil => simp [scoresSet]
  | cons e rest ih =>
    by_cases h : e.1 = key
    · rw [show e = (e.1, e.2) from rfl, scoresSet, if_pos h, h]
      simp only [List.map_cons, List.mem_cons]
      tauto
    · rw [show e = (e.1, e.2) from rfl, scoresSet, if_neg h]
      simp only [List.map_cons, List.mem_cons, ih]
      tauto

theorem nodup_keys_scoresSet (m : ScoreMap) (key : String) (v : ℚ)
    (h : (m.map Prod.fst).Nodup) : ((scoresSet m key v).map Prod.fst).Nodup := by
  induction m with
  | nil => simp [scoresSet]
  | cons e rest ih =>
    simp only [List.map_cons, List.nodup_cons] at h
    by_cases hk : e.1 = key
    · rw [show e = (e.1, e.2) from rfl, scoresSet, if_pos hk]
      simp only [List.map_cons, List.nodup_cons]
      exact h
    · rw [show e = (e.1, e.2) from rfl, scoresSet, if_neg hk]
      simp only [List.map_cons, List.nodup_cons]
      refine ⟨?_, ih h.2⟩
      rw [mem_keys_scoresSet]
      rintro (hm | rfl)
      · exact h.1 hm
      · exact hk rfl

theorem nodup_keys_processResultsAux (startRank : Nat) (rs : List Row) (idx : Nat)
    (m : ScoreMap) (h : (m.map Prod.fst).Nodup) :
    ((processResultsAux startRank rs idx m).map Prod.fst).Nodup := by
  induction rs generalizing idx m with
  | nil => simpa [processResultsAux] using h
  | cons r rest ih =>
    simp only [processResultsAux]
    exact ih _ _ (nodup_keys_scoresSet _ _ _ h)

/-! ### Helper lemmas about key splitting -/

theorem splitSep_eq : ∀ L : List Char,
    splitSep L = takeUntilSep L :: (if hasSep L then splitSep (dropSep L) else [])
  | [] => by simp [splitSep, takeUntilSep, hasSep]
  | [c] => by simp [splitSep, takeUntilSep, hasSep]
  | c₁ :: c₂ :: cs => by
    by_cases h : c₁ = ':' ∧ c₂ = ':'
    · simp [splitSep, takeUntilSep, hasSep, dropSep, h]
    · rw [splitSep, if_neg h, splitSep_eq (c₂ :: cs)]
      rw [takeUntilSep, if_neg h, hasSep, if_neg h, dropSep, if_neg h]

theorem takeUntilSep_prefixOf : ∀ L : List Char, takeUntilSep L <+: L
  | [] => by simp [takeUntilSep]
  | [c] => by simp [takeUntilSep]
  | c₁ :: c₂ :: cs => by
    by_cases h : c₁ = ':' ∧ c₂ = ':'
    · simp [takeUntilSep, h]
    · rw [takeUntilSep, if_neg h]
      obtain ⟨t, ht⟩ := takeUntilSep_prefixOf (c₂ :: cs)
      exact ⟨t, by rw [List.cons_append, ht]⟩

theorem length_takeUntilSep_lt : ∀ L : List Char, hasSep L = true →
    (takeUntilSep L).length < L.length
  | [], h => by simp [hasSep] at h
  | [c], h => by simp [hasSep] at h
  | c₁ :: c₂ :: cs, h => by
    by_cases hp : c₁ = ':' ∧ c₂ = ':'
    · simp [takeUntilSep, hp]
    · rw [hasSep, if_neg hp] at h
      have := length_takeUntilSep_lt (c₂ :: cs) h
      rw [takeUntilSep, if_neg hp]
      simpa using this

theorem takeUntilSep_of_not_hasSep : ∀ L : List Char, hasSep L = false →
    takeUntilSep L = L
  | [], _ => rfl
  | [_], _ => rfl
  | c₁ :: c₂ :: cs, h => by
    by_cases hp : c₁ = ':' ∧ c₂ = ':'
    · rw [hasSep, if_pos hp] at h
      exact absurd h (by simp)
    · rw [hasSep, if_neg hp] at h
      rw [takeUntilSep, if_neg hp, takeUntilSep_of_not_hasSep (c₂ :: cs) h]

theorem takeUntilSep_eq_self_iff (L : List Char) :
    takeUntilSep L = L ↔ hasSep L = false := by
  constructor
  · intro h
    by_contra h'
    have hlt := length_takeUntilSep_lt L (by simpa using h')
    rw [h] at hlt
    omega
  · exact takeUntilSep_of_not_hasSep L

theorem takeUntilSep_append_of_hasSep : ∀ T : List Char, ∀ R : List Char,
    hasSep T = true → takeUntilSep (T ++ R) = takeUntilSep T
  | [], _, h => by simp [hasSep] at h
  | [c], _, h => by simp [hasSep] at h
  | c₁ :: c₂ :: cs, R, h => by
    by_cases hp : c₁ = ':' ∧ c₂ = ':'
    · rw [List.cons_append, List.cons_append, takeUntilSep, if_pos hp,
        takeUntilSep, if_pos hp]
    · rw [hasSep, if_neg hp] at h
      rw [List.cons_append, List.cons_append, takeUntilSep, if_neg hp,
        takeUntilSep, if_neg hp, ← List.cons_append,
        takeUntilSep_append_of_hasSep (c₂ :: cs) R h]

theorem hasSep_append_sep : ∀ T : List Char, ∀ C : List Char,
    hasSep (T ++ ':' :: ':' :: C) = true
  | [], C => by simp [hasSep]
  | [c], C => by
    by_cases hp : c = ':' ∧ ':' = ':'
    · simp [hasSep, hp]
    · rw [List.cons_append, List.nil_append, hasSep, if_neg hp, hasSep, if_pos ⟨rfl, rfl⟩]
  | c₁ :: c₂ :: cs, C => by
    by_cases hp : c₁ = ':' ∧ c₂ = ':'
    · rw [List.cons_append, List.cons_append, hasSep, if_pos hp]
    · rw [List.cons_append, List.cons_append, hasSep, if_neg hp, ← List.cons_append,
        hasSep_append_sep (c₂ :: cs) C]

theorem sep_append_good : ∀ T : List Char, ∀ C : List Char,
    hasSep T = false → endsColon T = false →
    takeUntilSep (T ++ ':' :: ':' :: C) = T ∧ dropSep (T ++ ':' :: ':' :: C) = C
  | [], C, _, _ => by simp [takeUntilSep, dropSep]
  | [c], C, _, h₂ => by
    have hc : ¬ c = ':' := by simpa [endsColon] using h₂
    have hp : ¬ (c = ':' ∧ ':' = ':') := fun hx => hc hx.1
    constructor
    · rw [List.cons_append, List.nil_append, takeUntilSep, if_neg hp,
        takeUntilSep, if_pos ⟨rfl, rfl⟩]
    · rw [List.cons_append, List.nil_append, dropSep, if_neg hp,
        dropSep, if_pos ⟨rfl, rfl⟩]
  | c₁ :: c₂ :: cs, C, h₁, h₂ => by
    by_cases hp : c₁ = ':' ∧ c₂ = ':'
    · rw [hasSep, if_pos hp] at h₁
      exact absurd h₁ (by simp)
    · rw [hasSep, if_neg hp] at h₁
      have h₂' : endsColon (c₂ :: cs) = false := by
        simpa [endsColon, List.getLast?_cons_cons] using h₂
      have ih := sep_append_good (c₂ :: cs) C h₁ h₂'
      constructor
      · rw [List.cons_append, List.cons_append, takeUntilSep, if_neg hp,
          ← List.cons_append, ih.1]
      · rw [List.cons_append, List.cons_append, dropSep, if_neg hp,
          ← List.cons_append, ih.2]

theorem takeUntilSep_append_endsColon : ∀ T : List Char, ∀ C : List Char,
    hasSep T = false → endsColon T = true →
    takeUntilSep (T ++ ':' :: ':' :: C) = T.dropLast
  | [], C, _, h₂ => by simp [endsColon] at h₂
  | [c], C, _, h₂ => by
    have hc : c = ':' := by simpa [endsColon] using h₂
    subst hc
    rw [List.cons_append, List.nil_append, takeUntilSep, if_pos ⟨rfl, rfl⟩]
    rfl
  | c₁ :: c₂ :: cs, C, h₁, h₂ => by
    by_cases hp : c₁ = ':' ∧ c₂ = ':'
    · rw [hasSep, if_pos hp] at h₁
      exact absurd h₁ (by simp)
    · rw [hasSep, if_neg hp] at h₁
      have h₂' : endsColon (c₂ :: cs) = true := by
        simpa [endsColon, List.getLast?_cons_cons] using h₂
      rw [List.cons_append, List.cons_append, takeUntilSep, if_neg hp,
        ← List.cons_append, takeUntilSep_append_endsColon (c₂ :: cs) C h₁ h₂',
        List.dropLast_cons₂]

theorem hasSep_iff_contains : ∀ L : List Char, hasSep L = true ↔ [':', ':'] <:+: L
  | [] => by
    simp only [hasSep, Bool.false_eq_true, false_iff]
    intro h
    simpa using h.length_le
  | [c] => by
    simp only [hasSep, Bool.false_eq_true, false_iff]
    intro h
    simpa using h.length_le
  | c₁ :: c₂ :: cs => by
    by_cases hp : c₁ = ':' ∧ c₂ = ':'
    · rw [hasSep, if_pos hp]
      simp only [true_iff]
      exact ⟨[], cs, by rw [hp.1, hp.2]; rfl⟩
    · rw [hasSep, if_neg hp, hasSep_iff_contains (c₂ :: cs)]
      constructor
      · exact fun h => List.infix_cons h
      · intro h
        rcases List.infix_cons_iff.mp h with hpre | hin
        · rcases List.cons_prefix_cons.mp hpre with ⟨rfl, hpre₂⟩
          rcases List.cons_prefix_cons.mp hpre₂ with ⟨rfl, -⟩
          exact absurd ⟨rfl, rfl⟩ hp
        · exact hin

theorem endsColon_iff (L : List Char) : endsColon L = true ↔ L.getLast? = some ':' := by
  simp [endsColon]

theorem decodeKey_title (key : String) :
    (decodeKey key).title = String.mk (takeUntilSep key.data) := by
  unfold decodeKey
  rw [splitSep_eq key.data]
  by_cases h : hasSep key.data = true
  · rw [if_pos h, splitSep_eq (dropSep key.data)]
  · rw [if_neg (by simpa using h)]

theorem mkKey_data (t c : String) :
    (mkKey ⟨t, c⟩).data = t.data ++ ':' :: ':' :: c.data := by
  show (t ++ "::" ++ c).data = _
  rw [String.data_append, String.data_append]
  rw [show ("::" : String).data = [':', ':'] from rfl]
  simp

theorem decodeKey_mkKey_good (t c : String) (h₁ : hasSep t.data = false)
    (h₂ : endsColon t.data = false) :
    decodeKey (mkKey ⟨t, c⟩) = ⟨t, String.mk (takeUntilSep c.data)⟩ := by
  unfold decodeKey
  rw [mkKey_data, splitSep_eq, if_pos (hasSep_append_sep t.data c.data),
    (sep_append_good t.data c.data h₁ h₂).1, (sep_append_good t.data c.data h₁ h₂).2,
    splitSep_eq c.data]

instance : IsTotal (String × ℚ) scoreOrder :=
  ⟨fun a b => le_total b.2 a.2⟩

instance : IsTrans (String × ℚ) scoreOrder :=
  ⟨fun _ _ _ h₁ h₂ => le_trans h₂ h₁⟩

/-! ### Claim theorems -/

/-- C1: RRF fusion unit correctness: with `k = 60`, if the vector channel
returns A then B (ranks 0, 1) and the full-text channel returns B then C
(ranks 0, 1), all with distinct `(title, content)` keys, then
`searchAndCombineResults` accumulates scores `A = 1/60`,
`B = 1/61 + 1/60`, `C = 1/61`, and returns the items in the order
B, A, C. -/
theorem rrf_fusion_unit_correctness :
    mkKey rowA ≠ mkKey rowB ∧ mkKey rowA ≠ mkKey rowC ∧ mkKey rowB ≠ mkKey rowC ∧
    getScoreD (fuseScores [rowA, rowB] [rowB, rowC]) (mkKey rowA) = 1 / 60 ∧
    getScoreD (fuseScores [rowA, rowB] [rowB, rowC]) (mkKey rowB) = 1 / 61 + 1 / 60 ∧
    getScoreD (fuseScores [rowA, rowB] [rowB, rowC]) (mkKey rowC) = 1 / 61 ∧
    searchAndCombineResults [rowA, rowB] [rowB, rowC] 20
      = [⟨"B", "b"⟩, ⟨"A", "a"⟩, ⟨"C", "c"⟩] := by
  refine ⟨by decide, by decide, by decide, ?_, ?_, ?_, ?_⟩ <;>
  · norm_num [searchAndCombineResults, fuseScores, processResults, processResultsAux,
      scoresSet, scoresGet, getScoreD, k, sortByScore, List.insertionSort,
      List.orderedInsert, scoreOrder,
      show mkKey rowA = "A::a" from rfl, show mkKey rowB = "B::b" from rfl,
      show mkKey rowC = "C::c" from rfl,
      show ("A::a" : String) ≠ "B::b" by decide, show ("A::a" : String) ≠ "C::c" by decide,
      show ("B::b" : String) ≠ "C::c" by decide, show ("B::b" : String) ≠ "A::a" by decide,
      show ("C::c" : String) ≠ "A::a" by decide, show ("C::c" : String) ≠ "B::b" by decide,
      show decodeKey "A::a" = ⟨"A", "a"⟩ by decide,
      show decodeKey "B::b" = ⟨"B", "b"⟩ by decide,
      show decodeKey "C::c" = ⟨"C", "c"⟩ by decide]

/-- C2: channel-failure isolation in search: a throwing channel is caught
locally and treated as that channel returning the empty list, while the
other channel's delivered results still enter fusion unchanged; when
both channels throw the call returns the empty sequence rather than
raising. -/
theorem channel_failure_isolation (msg₁ msg₂ : String)
    (vectorOutcome ftsOutcome : Except String (List Row)) (limit : Nat) :
    searchAndCombineResultsE (.error msg₁) ftsOutcome limit
      = searchAndCombineResults [] (recoverChannel ftsOutcome) limit ∧
    searchAndCombineResultsE vectorOutcome (.error msg₂) limit
      = searchAndCombineResults (recoverChannel vectorOutcome) [] limit ∧
    searchAndCombineResultsE (.error msg₁) (.error msg₂) limit = [] := by
  refine ⟨rfl, rfl, ?_⟩
  simp [searchAndCombineResultsE, searchAndCombineResults, recoverChannel, fuseScores,
    processResults, processResultsAux, sortByScore, List.insertionSort]

/-- C3: result-set shape of hybrid search: the returned sequence has at
most `limit` elements; it is exactly the decoded `{title, content}`
pairs (score stripped) of the first `limit` entries of the accumulated
score map sorted by descending total score (a permutation of the
accumulated entries). -/
theorem search_result_shape (vectorResults ftsSearchResults : List Row) (limit : Nat) :
    (searchAndCombineResults vectorResults ftsSearchResults limit).length ≤ limit ∧
    searchAndCombineResults vectorResults ftsSearchResults limit
      = ((sortByScore (fuseScores vectorResults ftsSearchResults)).take limit).map
          (fun e => decodeKey e.1) ∧
    (sortByScore (fuseScores vectorResults ftsSearchResults)).Sorted scoreOrder ∧
    List.Perm (sortByScore (fuseScores vectorResults ftsSearchResults))
      (fuseScores vectorResults ftsSearchResults) := by
  refine ⟨?_, rfl, ?_, ?_⟩
  · rw [searchAndCombineResults, List.length_map, List.length_take]
    exact min_le_left _ _
  · exact List.sorted_insertionSort scoreOrder _
  · exact List.perm_insertionSort scoreOrder _

/-- C4: result identity during fusion: the accumulated score of any
`(title, content)` key is the sum of its contributions from the two
channels (so an item appearing in both ranked lists receives both), and
the accumulated map holds each key at most once, so rows with identical
title and content fuse into a single entry. -/
theorem fusion_accumulates_per_key (vectorResults ftsSearchResults : List Row)
    (key : String) :
    getScoreD (fuseScores vectorResults ftsSearchResults) key
      = channelContrib key vectorResults + channelContrib key ftsSearchResults ∧
    ((fuseScores vectorResults ftsSearchResults).map Prod.fst).Nodup := by
  constructor
  · rw [fuseScores, processResults, processResults, getScoreD_processResultsAux,
      getScoreD_processResultsAux]
    simp [getScoreD, scoresGet, channelContrib]
  · exact nodup_keys_processResultsAux _ _ _ _
      (nodup_keys_processResultsAux _ _ _ _ (by simp))

/-- C9: fusion determinism: for fixed channel result lists the result is
a fixed value (repeated calls agree); the accumulation processes the
vector channel before the full-text channel, and a tie in total score
between two accumulated entries is broken by their insertion order,
which the stable descending sort preserves. -/
theorem fusion_determinism_tiebreak (vectorResults ftsSearchResults : List Row)
    (limit : Nat) (e₁ e₂ : String × ℚ)
    (hsub : List.Sublist [e₁, e₂] (fuseScores vectorResults ftsSearchResults))
    (htie : e₁.2 = e₂.2) :
    searchAndCombineResults vectorResults ftsSearchResults limit
      = searchAndCombineResults vectorResults ftsSearchResults limit ∧
    fuseScores vectorResults ftsSearchResults
      = processResults ftsSearchResults 0 (processResults vectorResults 0 []) ∧
    List.Sublist [e₁, e₂] (sortByScore (fuseScores vectorResults ftsSearchResults)) := by
  refine ⟨rfl, rfl, ?_⟩
  exact List.pair_sublist_insertionSort (le_of_eq htie.symm) hsub

/-- C9 witness: two items ranked 0 and 1 by the vector channel and 1 and
0 by the full-text channel tie at `1/60 + 1/61`; the first-inserted
(vector rank 0) item keeps its position in the sorted output. -/
theorem fusion_determinism_tiebreak_witness :
    searchAndCombineResults [rowA, rowB] [rowB, rowA] 20
      = searchAndCombineResults [rowA, rowB] [rowB, rowA] 20 ∧
    fuseScores [rowA, rowB] [rowB, rowA]
      = processResults [rowB, rowA] 0 (processResults [rowA, rowB] 0 []) ∧
    List.Sublist [("A::a", 1 / 60 + 1 / 61), ("B::b", 1 / 61 + 1 / 60)]
      (sortByScore (fuseScores [rowA, rowB] [rowB, rowA])) := by
  refine fusion_determinism_tiebreak [rowA, rowB] [rowB, rowA] 20
    ("A::a", 1 / 60 + 1 / 61) ("B::b", 1 / 61 + 1 / 60) ?_ (by norm_num)
  have h : fuseScores [rowA, rowB] [rowB, rowA]
      = [("A::a", 1 / 60 + 1 / 61), ("B::b", 1 / 61 + 1 / 60)] := by
    norm_num [fuseScores, processResults, processResultsAux, scoresSet, scoresGet,
      getScoreD, k, show mkKey rowA = "A::a" from rfl, show mkKey rowB = "B::b" from rfl,
      show ("A::a" : String) ≠ "B::b" by decide, show ("B::b" : String) ≠ "A::a" by decide]
  rw [h]

theorem translateNote_title (translate : String → Except String String)
    (node : NoteDetail) : (translateNote translate node).title = node.title := by
  unfold translateNote
  split <;> rfl

theorem mkChunks_map_id (notes : List NoteDetail) :
    (mkChunks notes).map Chunk.id = (List.range notes.length).map toString := by
  rw [mkChunks, List.map_map, ← List.enum_map_fst, List.map_map]
  rfl

theorem mkChunks_map_title (notes : List NoteDetail) :
    (mkChunks notes).map Chunk.title = notes.map NoteDetail.title := by
  rw [mkChunks, List.map_map]
  conv_rhs => rw [← List.enum_map_snd notes, List.map_map]
  rfl

theorem length_mkChunks (notes : List NoteDetail) :
    (mkChunks notes).length = notes.length := by
  rw [mkChunks, List.length_map, List.enum_length]

/-- C5: zero-note indexing is not an error: when no fetched record
survives the title filter, no bulk insert is issued, the pass reports
`chunks = 0` with a report ending in the no-valid-notes message, and the
error field of the outer catch stays empty. -/
theorem zero_note_indexing (clearResult : Except String Unit)
    (allNotesOpt : Option (List String)) (fetch : String → Except String NoteDetail)
    (translate : String → Except String String)
    (addResult : List Chunk → Except String Unit)
    (h : survivors fetch (allNotesOpt.getD []) = []) :
    (indexNotes clearResult (.ok allNotesOpt) fetch translate addResult).2 = none ∧
    (indexNotes clearResult (.ok allNotesOpt) fetch translate addResult).1.chunks = 0 ∧
    (∃ pre : String,
      (indexNotes clearResult (.ok allNotesOpt) fetch translate addResult).1.report
        = pre ++ "No valid notes found to index.") ∧
    (indexNotes clearResult (.ok allNotesOpt) fetch translate addResult).1.error = none := by
  have hchunks : chunksOf fetch translate (allNotesOpt.getD []) = [] := by
    rw [chunksOf, h]
    rfl
  refine ⟨?_, ?_, ?_, ?_⟩
  · simp [indexNotes, indexNotesBody, hchunks]
  · simp [indexNotes, indexNotesBody, hchunks]
  · refine ⟨clearReport clearResult ++ (fetchReport fetch (allNotesOpt.getD [])
      ++ translateReport translate (survivors fetch (allNotesOpt.getD []))), ?_⟩
    simp [indexNotes, indexNotesBody, hchunks, String.append_assoc]
  · simp [indexNotes, indexNotesBody, hchunks]

/-- C5 witness: a run over an empty title list. -/
theorem zero_note_indexing_witness :
    (indexNotes (.ok ()) (.ok (some [])) (fun _ => .ok emptyDetail)
        (fun s => .ok s) (fun _ => .ok ())).2 = none ∧
    (indexNotes (.ok ()) (.ok (some [])) (fun _ => .ok emptyDetail)
        (fun s => .ok s) (fun _ => .ok ())).1.chunks = 0 ∧
    (∃ pre : String,
      (indexNotes (.ok ()) (.ok (some [])) (fun _ => .ok emptyDetail)
          (fun s => .ok s) (fun _ => .ok ())).1.report
        = pre ++ "No valid notes found to index.") ∧
    (indexNotes (.ok ()) (.ok (some [])) (fun _ => .ok emptyDetail)
        (fun s => .ok s) (fun _ => .ok ())).1.error = none :=
  zero_note_indexing (.ok ()) (some []) (fun _ => .ok emptyDetail)
    (fun s => .ok s) (fun _ => .ok ()) rfl

/-- C6: clear-failure recovery: a failing initial delete only prepends
the warning to the report; chunk count, note count, inserted rows and
the error field are those of the run whose clear succeeded, so a clear
failure never aborts the pass or reaches an error terminal state. -/
theorem clear_failure_recovery (msg : String)
    (getNotesResult : Except String (Option (List String)))
    (fetch : String → Except String NoteDetail)
    (translate : String → Except String String)
    (addResult : List Chunk → Except String Unit) :
    (indexNotes (.error msg) getNotesResult fetch translate addResult).1.report
      = s!"Warning: Failed to clear existing records: {msg}. Will proceed with indexing.\n"
        ++ (indexNotes (.ok ()) getNotesResult fetch translate addResult).1.report ∧
    (indexNotes (.error msg) getNotesResult fetch translate addResult).1.chunks
      = (indexNotes (.ok ()) getNotesResult fetch translate addResult).1.chunks ∧
    (indexNotes (.error msg) getNotesResult fetch translate addResult).1.allNotes
      = (indexNotes (.ok ()) getNotesResult fetch translate addResult).1.allNotes ∧
    (indexNotes (.error msg) getNotesResult fetch translate addResult).1.error
      = (indexNotes (.ok ()) getNotesResult fetch translate addResult).1.error ∧
    (indexNotes (.error msg) getNotesResult fetch translate addResult).2
      = (indexNotes (.ok ()) getNotesResult fetch translate addResult).2 := by
  simp [indexNotes, clearReport]

/-- C7: sequential id assignment: the chunks of a pass carry ids
`"0", "1", ..., "n-1"` in positional order over the `n` surviving
records, whose titles (hence order) are those of the survivors in fetch
order. -/
theorem sequential_id_assignment (fetch : String → Except String NoteDetail)
    (translate : String → Except String String) (allNotes : List String) :
    (chunksOf fetch translate allNotes).map Chunk.id
      = (List.range (survivors fetch allNotes).length).map toString ∧
    (chunksOf fetch translate allNotes).map Chunk.title
      = (survivors fetch allNotes).map NoteDetail.title ∧
    (chunksOf fetch translate allNotes).length = (survivors fetch allNotes).length := by
  refine ⟨?_, ?_, ?_⟩
  · rw [chunksOf, mkChunks_map_id, List.length_map]
  · rw [chunksOf, mkChunks_map_title, List.map_map]
    apply List.map_congr_left
    intro node _
    exact translateNote_title translate node
  · rw [chunksOf, length_mkChunks, List.length_map]

/-- C8: full-text index idempotence: `createNotesTable` invokes
`createIndex` exactly when no index named `content_idx` is listed, and
a repeated call on the resulting table never creates again — at most
one creation over any run of repeated calls. -/
theorem fulltext_index_idempotent (indices : List IndexInfo) :
    ((createNotesTable indices).2 = true ↔ ∀ i ∈ indices, i.name ≠ "content_idx") ∧
    (createNotesTable (createNotesTable indices).1).2 = false := by
  have hpost : ∀ l : List IndexInfo,
      ((createContentIdx l).find? (fun index => index.name == "content_idx")).isSome = true := by
    intro l
    rw [createContentIdx, List.find?_append]
    cases hf : l.find? (fun index => index.name == "content_idx") <;>
      simp [List.find?, Option.or, hf]
  constructor
  · by_cases h : (indices.find? (fun index => index.name == "content_idx")).isSome = true
    · rw [createNotesTable, if_pos h]
      simp only [Bool.false_eq_true, false_iff, not_forall]
      obtain ⟨i, hi, hp⟩ := List.find?_isSome.mp h
      exact ⟨i, hi, by simpa using hp⟩
    · rw [createNotesTable, if_neg h]
      simp only [true_iff]
      intro i hi
      have h' : ∀ x ∈ indices, ¬ x.name = "content_idx" := by simpa using h
      exact h' i hi
  · by_cases h : (indices.find? (fun index => index.name == "content_idx")).isSome = true
    · have h₁ : (createNotesTable indices).1 = indices := by
        rw [createNotesTable, if_pos h]
      rw [h₁, createNotesTable, if_pos h]
    · have h₁ : (createNotesTable indices).1 = createContentIdx indices := by
        rw [createNotesTable, if_neg h]
      rw [h₁, createNotesTable, if_pos (hpost indices)]

/-- C10 counterexample: the round-trip through the fusion key is NOT the
identity exactly when neither side contains `::`.  For title `"a:"` and
content `"b"` neither string contains `::`, yet the key `"a:::b"`
decodes to `("a", ":b")` — the trailing colon of the title merges with
the separator. -/
theorem key_roundtrip_counterexample :
    ¬ [':', ':'] <:+: "a:".data ∧
    ¬ [':', ':'] <:+: "b".data ∧
    decodeKey (mkKey ⟨"a:", "b"⟩) ≠ (⟨"a:", "b"⟩ : SearchResult) ∧
    decodeKey (mkKey ⟨"a:", "b"⟩) = ⟨"a", ":b"⟩ := by
  refine ⟨by decide, by decide, by decide, by decide⟩

/-- C10 (amended): the round-trip from a row's `(title, content)` pair
through the fusion key back to the returned pair is the identity exactly
when the title contains no `::` and does not end with `:` and the
content contains no `::`; for a row with such a well-behaved title whose
content does contain `::`, the returned content is a strict prefix of
the content, truncated at its first `::`; and distinct pairs such as
`("a::b", "c")` and `("a", "b::c")` collide to the same key and are
fused as one result. -/
theorem key_roundtrip_amended (t c : String) :
    (decodeKey (mkKey ⟨t, c⟩) = ⟨t, c⟩ ↔
      ¬ [':', ':'] <:+: t.data ∧ t.data.getLast? ≠ some ':' ∧ ¬ [':', ':'] <:+: c.data) ∧
    (¬ [':', ':'] <:+: t.data → t.data.getLast? ≠ some ':' → [':', ':'] <:+: c.data →
      (decodeKey (mkKey ⟨t, c⟩)).content.data <+: c.data ∧
      (decodeKey (mkKey ⟨t, c⟩)).content ≠ c) ∧
    mkKey ⟨"a::b", "c"⟩ = mkKey ⟨"a", "b::c"⟩ := by
  have hsep : ∀ L : List Char, (¬ [':', ':'] <:+: L) ↔ hasSep L = false := by
    intro L
    rw [← hasSep_iff_contains L]
    simp
  have hcol : ∀ L : List Char, (L.getLast? ≠ some ':') ↔ endsColon L = false := by
    intro L
    simp [endsColon]
  refine ⟨?_, ?_, by decide⟩
  · constructor
    · intro hid
      have ht : hasSep t.data = false := by
        by_contra hbad
        have hbad' : hasSep t.data = true := by simpa using hbad
        have h₁ := congrArg SearchResult.title hid
        rw [decodeKey_title, mkKey_data,
          takeUntilSep_append_of_hasSep t.data _ hbad'] at h₁
        have heq : takeUntilSep t.data = t.data := congrArg String.data h₁
        have hlt := length_takeUntilSep_lt t.data hbad'
        rw [heq] at hlt
        exact lt_irrefl _ hlt
      have hcolon : endsColon t.data = false := by
        by_contra hbad
        have hbad' : endsColon t.data = true := by simpa using hbad
        have h₁ := congrArg SearchResult.title hid
        rw [decodeKey_title, mkKey_data,
          takeUntilSep_append_endsColon t.data c.data ht hbad'] at h₁
        have heq : t.data.dropLast = t.data := congrArg String.data h₁
        have hne : t.data ≠ [] := by
          intro hnil
          rw [hnil] at hbad'
          simp [endsColon] at hbad'
        have hlen := congrArg List.length heq
        rw [List.length_dropLast] at hlen
        have hpos : 0 < t.data.length := List.length_pos.mpr hne
        omega
      have hcontent : hasSep c.data = false := by
        rw [decodeKey_mkKey_good t c ht hcolon] at hid
        have heq : takeUntilSep c.data = c.data :=
          congrArg String.data (congrArg SearchResult.content hid)
        exact (takeUntilSep_eq_self_iff c.data).mp heq
      exact ⟨(hsep t.data).mpr ht, (hcol t.data).mpr hcolon, (hsep c.data).mpr hcontent⟩
    · rintro ⟨h₁, h₂, h₃⟩
      rw [decodeKey_mkKey_good t c ((hsep t.data).mp h₁) ((hcol t.data).mp h₂),
        takeUntilSep_of_not_hasSep c.data ((hsep c.data).mp h₃)]
  · intro h₁ h₂ h₃
    rw [decodeKey_mkKey_good t c ((hsep t.data).mp h₁) ((hcol t.data).mp h₂)]
    have hC : hasSep c.data = true := (hasSep_iff_contains c.data).mpr h₃
    refine ⟨takeUntilSep_prefixOf c.data, ?_⟩
    intro hbad
    have heq : takeUntilSep c.data = c.data := congrArg String.data hbad
    have hlt := length_takeUntilSep_lt c.data hC
    rw [heq] at hlt
    exact lt_irrefl _ hlt

/-- C10 witness: for title `"a"` and content `"x::y"` the returned
content `"x"` is a strict prefix of the content, truncated at the first
`::`. -/
theorem key_roundtrip_amended_witness :
    (decodeKey (mkKey ⟨"a", "x::y"⟩)).content.data <+: "x::y".data ∧
    (decodeKey (mkKey ⟨"a", "x::y"⟩)).content ≠ "x::y" :=
  (key_roundtrip_amended "a" "x::y").2.1 (by decide) (by decide) (by decide)

end McpAppleNotes
